import Mathlib

/-!
Verification development for `json_to_models/models/base.py`.

The file shallowly embeds the code of that module in Lean:

* `template_text` — the text preprocessing performed by `template()` before the
  pattern is handed to the templating engine;
* `GenericModelCodeGenerator` — the per-type code generator (`init`,
  `decorators`, `field_data`, `fields`, `generate`), with the Jinja templates
  `BODY` and `FIELD` embedded as the rendering functions `BODY_render` and
  `FIELD_render` (derived from the template text and the engine's whitespace
  stripping rules);
* `_generate_code` / `generate_code` — the recursive structure walker and the
  public entry point;
* `sort_kwargs` — the keyword ordering utility, embedded with explicit
  Python-dict state (insertion-ordered association lists, in-place pops
  surfaced as the returned final state of the argument mapping).

External collaborators of the module (`sort_fields`, `metadata_to_typing`,
`compile_imports`, `inflection.underscore`, `indent`) are parameters of the
embedding: the code under verification never looks inside them.
-/

set_option maxHeartbeats 1000000

/-! ## Python dicts as insertion-ordered association lists -/

/-- Membership test `k in d` on a Python dict, as a key scan. -/
def hasKey {α : Type} (d : List (String × α)) (k : String) : Bool :=
  d.any (fun p => p.1 == k)

/-- Python `d.pop(k)` guarded by `k in d`: returns the value found for `k`
(if any) together with the mapping after removing that entry; a missing key
leaves the mapping unchanged and returns `none`. -/
def dictPop {α : Type} : List (String × α) → String → Option α × List (String × α)
  | [], _ => (none, [])
  | p :: rest, k =>
    if p.1 == k then (some p.2, rest)
    else
      let (v, rest') := dictPop rest k
      (v, p :: rest')

/-- Python `d[k] = v`: updates the value in place when the key is present,
otherwise appends the new entry at the end (insertion order). -/
def dictInsert {α : Type} : List (String × α) → String → α → List (String × α)
  | [], k, v => [(k, v)]
  | p :: rest, k, v => if p.1 == k then (k, v) :: rest else p :: dictInsert rest k v

/-- Python `{**a, **b}`: inserts every entry of `b` into `a`, left to right. -/
def dictMerge {α : Type} (a b : List (String × α)) : List (String × α) :=
  b.foldl (fun acc p => dictInsert acc p.1 p.2) a

/-- The keys of the mapping are pairwise distinct — true of every real Python
dict, and assumed by theorems that transport dict reasoning to the list model. -/
def keysNodup {α : Type} (d : List (String × α)) : Prop :=
  (d.map Prod.fst).Nodup

instance {α : Type} (d : List (String × α)) : Decidable (keysNodup d) := by
  unfold keysNodup; infer_instance

/-! ## `template()` — pattern preprocessing (`base.py`, lines 16-29) -/

/-- The text that `template(pattern, indent)` passes to the templating engine:
multi-line patterns are split on newlines, a blank line is deleted at index 0
and then at index -1 (Python `for i in (0, -1): if not lines[i].strip(): del
lines[i]`), and each line whose first `len(indent)` characters equal `indent`
loses them; single-line patterns pass through unchanged. -/
def template_text (pattern : String) (ind : String) : String :=
  if pattern.contains '\n' then
    let n := ind.length
    let lines0 := pattern.splitOn "\n"
    let lines1 :=
      match lines0 with
      | [] => []
      | l :: rest => if l.trim = "" then rest else l :: rest
    let lines2 :=
      match lines1.getLast? with
      | some l => if l.trim = "" then lines1.dropLast else lines1
      | none => lines1
    String.intercalate "\n" (lines2.map (fun line => if line.take n = ind then line.drop n else line))
  else pattern

/-- Deletes the first line when it is whitespace-only; used by the spec-side
formulation of the `template()` transformation. -/
def stripLeadingBlankLine (lines : List String) : List String :=
  match lines with
  | [] => []
  | l :: rest => if l.trim = "" then rest else l :: rest

/-- The `template()` transformation as the specification words it: delete a
leading whitespace-only line and a trailing whitespace-only line when present
(the trailing one expressed by reversing the list), then remove exactly one
leading indent unit from every line that begins with it, leaving other lines
as they are; patterns without a newline are returned unchanged. -/
def template_spec (pattern : String) (ind : String) : String :=
  if pattern.contains '\n' then
    let lines := stripLeadingBlankLine (pattern.splitOn "\n")
    let lines := (stripLeadingBlankLine lines.reverse).reverse
    String.intercalate "\n"
      (lines.map (fun line => if line.take ind.length = ind then line.drop ind.length else line))
  else pattern

/-! ## `GenericModelCodeGenerator` (`base.py`, lines 32-114) -/

/-- The type metadata consumed by the generator: a name and the mapping from
field name to field type descriptor (`M` is the opaque descriptor type). -/
structure ModelMeta (M : Type) where
  name : String
  type : List (String × M)

/-- A value stored in an instance attribute of the generator: either the type
metadata or a captured keyword-configuration mapping. -/
inductive InstAttr (M V : Type) where
  | model (m : ModelMeta M)
  | kwargs (kw : List (String × V))

/-- Python dict lookup `d[k]` surfaced as an `Option` (a missing key raises). -/
def dictGet {α : Type} (d : List (String × α)) (k : String) : Option α :=
  (d.find? (fun p => p.1 == k)).map Prod.snd

namespace GenericModelCodeGenerator

/-- `__init__(self, model, **kwargs)`: the instance attribute dict that the
constructor produces — it assigns `self.model = model` and nothing else. -/
def init {M V : Type} (model : ModelMeta M) (_kwargs : List (String × V)) :
    List (String × InstAttr M V) :=
  [("model", InstAttr.model model)]

/-- The `decorators` property of the base class: always the empty list. -/
def decorators : List String := []

/-- Rendering of the single-line `FIELD` template: the field name, a colon and
the type text, and — only when a non-empty default body text is supplied — an
equals sign and that text. -/
def FIELD_render (name ty : String) (body : Option String) : String :=
  name ++ ": " ++ ty ++
    (match body with
     | some b => if b.isEmpty then "" else " = " ++ b
     | none => "")

/-- `field_data(name, meta, optional)`: converts the descriptor through the
external converter `mt`, canonicalises the name through `us`
(`inflection.underscore`), and returns the converter's imports together with
the template data (name text, type text). The `optional` flag is accepted and
ignored by the base class. -/
def field_data {M I : Type} (mt : M → List I × String) (us : String → String)
    (name : String) (meta : M) (_optional : Bool) : List I × String × String :=
  let (imports, typing) := mt meta
  (imports, us name, typing)

/-- The inner loop of the `fields` property over one name sequence: looks each
field name up in the type mapping (a missing key raises, surfaced as `none`),
renders its line with `FIELD_render` (no default body), and accumulates the
converter imports in field order. -/
def fieldsGo {M I : Type} (mt : M → List I × String) (us : String → String)
    (tymap : List (String × M)) (opt : Bool) :
    List String → Option (List I × List String)
  | [] => some ([], [])
  | f :: fs => do
    let meta ← dictGet tymap f
    let (imps, nm, ty) := field_data mt us f meta opt
    let (rimps, rstrs) ← fieldsGo mt us tymap opt fs
    some (imps ++ rimps, FIELD_render nm ty none :: rstrs)

/-- The `fields` property: partitions the field names with the external helper
`sf` (`sort_fields`) and renders all required names first, then all optional
names, concatenating imports and field lines in that order. -/
def fields {M I : Type} (sf : ModelMeta M → List String × List String)
    (mt : M → List I × String) (us : String → String) (model : ModelMeta M) :
    Option (List I × List String) := do
  let (required, optional) := sf model
  let (i1, s1) ← fieldsGo mt us model.type false required
  let (i2, s2) ← fieldsGo mt us model.type true optional
  some (i1 ++ i2, s1 ++ s2)

/-- Rendering of the `BODY` template under the engine's whitespace-control
rules: one line per decorator, the class header, one nested block per nested
declaration (each preceded by a newline and followed by a blank-line break),
then either one indented line per field or the single indented placeholder
line when the field list is empty. -/
def BODY_render (decorators : List String) (name : String)
    (nested : List String) (fields : List String) : String :=
  String.join (decorators.map (fun d => "@" ++ d ++ "\n"))
  ++ "class " ++ name ++ ":"
  ++ String.join (nested.map (fun c => "\n" ++ c ++ "\n"))
  ++ (if fields.isEmpty then "\n    pass"
      else String.join (fields.map (fun f => "\n    " ++ f)))

/-- Everything `BODY_render` produces before the field/placeholder part: the
decorator lines, the class header and the nested blocks. -/
def bodyHeader (decorators : List String) (name : String) (nested : List String) : String :=
  String.join (decorators.map (fun d => "@" ++ d ++ "\n"))
  ++ "class " ++ name ++ ":"
  ++ String.join (nested.map (fun c => "\n" ++ c ++ "\n"))

/-- `generate(nested_classes)`: computes `(imports, field lines)` through the
`fields` property, indents each supplied nested declaration with the external
`indent` helper `indF` (an absent/empty list contributes nothing), and renders
the `BODY` template with the empty decorator list, the model name, the
indented nested blocks and the field lines. -/
def generate {M I : Type} (sf : ModelMeta M → List String × List String)
    (mt : M → List I × String) (us : String → String) (indF : String → String)
    (model : ModelMeta M) (nested_classes : List String) :
    Option (List I × String) := do
  let (imports, flds) ← fields sf mt us model
  let nested := if nested_classes.isEmpty then [] else nested_classes.map indF
  some (imports, BODY_render decorators model.name nested flds)

end GenericModelCodeGenerator

/-! ## `_generate_code` and `generate_code` (`base.py`, lines 117-167) -/

/-- One node of the models structure: the dict `{"model": ..., "nested": [...]}`
produced by `compose_models`. -/
inductive StructDict (M : Type) where
  | mk (model : ModelMeta M) (nested : List (StructDict M))

/-- The `"model"` entry of a structure node. -/
def StructDict.model {M : Type} : StructDict M → ModelMeta M
  | .mk m _ => m

/-- The `"nested"` entry of a structure node. -/
def StructDict.nested {M : Type} : StructDict M → List (StructDict M)
  | .mk _ n => n

/-- The behaviour of `class_generator(model, **kwargs).generate(nested)` for
the generator class the walker is instantiated with: from the node's metadata,
the forwarded keyword configuration and the already-rendered nested class
texts it produces the imports and the class text. -/
def GenCls (M V I : Type) : Type :=
  ModelMeta M → List (String × V) → List String → List I × String

/-- `_generate_code(structure, class_generator, class_generator_kwargs, lvl)`:
for each node, in order, first walks the node's children at `lvl + 1`, then
generates the node's own class from the children's rendered texts; the import
accumulator is extended with the children's imports and then with the node's
own imports, and class texts are appended in input node order. -/
def _generate_code {M V I : Type} (gen : GenCls M V I) (kwargs : List (String × V)) :
    List (StructDict M) → Nat → List I × List String
  | [], _ => ([], [])
  | .mk model nested :: rest, lvl =>
    let (nested_imports, nested_classes) := _generate_code gen kwargs nested (lvl + 1)
    let (cls_imports, cls_string) := gen model kwargs nested_classes
    let (rest_imports, rest_classes) := _generate_code gen kwargs rest lvl
    (nested_imports ++ cls_imports ++ rest_imports, cls_string :: rest_classes)

/-- `generate_code(structure, class_generator, class_generator_kwargs,
objects_delimiter)`: walks the root nodes (the reference mapping component of
the structure pair only feeds the resolution context, which no pure
computation here reads), renders the import block through the external
compiler `cw` followed by one delimiter when any import was collected, and
joins the top-level class texts with the delimiter, ending with one newline.
`kwargs? = none` models passing `class_generator_kwargs=None`, replaced by
`{}` (`class_generator_kwargs or {}`). -/
def generate_code {M V I Mp : Type} (cw : List I → String) (gen : GenCls M V I)
    (structurePair : List (StructDict M) × Mp) (kwargs? : Option (List (String × V)))
    (objects_delimiter : String) : String :=
  let (root, _mapping) := structurePair
  let (imports, classes) := _generate_code gen (kwargs?.getD []) root 0
  let imports_str := if imports.isEmpty then "" else cw imports ++ objects_delimiter
  imports_str ++ String.intercalate objects_delimiter classes ++ "\n"

/-! ### Specification-side walker formulations used by the claims -/

/-- The walker without the (behaviourally inert) depth counter; used as the
specification handle for the recursion. -/
def treeWalk {M V I : Type} (gen : GenCls M V I) (kwargs : List (String × V)) :
    List (StructDict M) → List I × List String
  | [] => ([], [])
  | .mk model nested :: rest =>
    let (nested_imports, nested_classes) := treeWalk gen kwargs nested
    let (cls_imports, cls_string) := gen model kwargs nested_classes
    let (rest_imports, rest_classes) := treeWalk gen kwargs rest
    (nested_imports ++ cls_imports ++ rest_imports, cls_string :: rest_classes)

/-- The import list as the specification describes its construction: for each
node in order, the imports of the node's children first, then the node's own
generator imports. -/
def treeImports {M V I : Type} (gen : GenCls M V I) (kwargs : List (String × V)) :
    List (StructDict M) → List I
  | [] => []
  | .mk model nested :: rest =>
    treeImports gen kwargs nested
      ++ (gen model kwargs (treeWalk gen kwargs nested).2).1
      ++ treeImports gen kwargs rest

/-- `Occurs node nodes`: `node` is visited by the walk of `nodes` — it is a
root node or occurs, at any depth, inside the nested children of one. -/
inductive Occurs {M : Type} : StructDict M → List (StructDict M) → Prop where
  | top {node : StructDict M} {nodes : List (StructDict M)} :
      node ∈ nodes → Occurs node nodes
  | deeper {node parent : StructDict M} {nodes : List (StructDict M)} :
      parent ∈ nodes → Occurs node parent.nested → Occurs node nodes

/-! ### The resolution context (`with AbsoluteModelRef.inject(mapping)`) -/

/-- The process-wide resolution slot: `none` when no mapping is active. -/
structure CtxState (Mp : Type) where
  active : Option Mp
  deriving DecidableEq

/-- Modelled from the spec: `AbsoluteModelRef.inject` (defined outside this
module, in the dynamic-typing support library) — entering the context manager
activates the process-wide reference mapping. -/
def inject_enter {Mp : Type} (mapping : Mp) (_s : CtxState Mp) : CtxState Mp :=
  { active := some mapping }

/-- Modelled from the spec: leaving `AbsoluteModelRef.inject` releases the
activation, restoring the state from before entry; the `with` statement runs
this on every exit path, normal or raising. -/
def inject_exit {Mp : Type} (saved : CtxState Mp) (_s : CtxState Mp) : CtxState Mp :=
  saved

/-- `generate_code` with the `with AbsoluteModelRef.inject(mapping)` block made
explicit: the walk runs as a fallible computation over the context state set
by entry; exit runs whether the walk returns or raises, and the text assembly
happens only on the success path. -/
def generate_code_scoped {I E Mp : Type} (cw : List I → String)
    (walk : CtxState Mp → Except E (List I × List String)) (mapping : Mp)
    (objects_delimiter : String) (s0 : CtxState Mp) :
    Except E String × CtxState Mp :=
  let s1 := inject_enter mapping s0
  let r := walk s1
  let s2 := inject_exit s0 s1
  match r with
  | .error e => (.error e, s2)
  | .ok (imports, classes) =>
    let imports_str := if imports.isEmpty then "" else cw imports ++ objects_delimiter
    (.ok (imports_str ++ String.intercalate objects_delimiter classes ++ "\n"), s2)

/-! ## `sort_kwargs` (`base.py`, lines 170-185) -/

/-- One element of the `ordering` argument: either a bare string (only `"*"`
is legal) or a group of argument names. -/
inductive OrdElem where
  | str (s : String)
  | group (g : List String)
  deriving DecidableEq

/-- The group loop body: for each name of the group present in the mapping,
pop it from the mapping and insert it into the current bucket. -/
def popGroup {α : Type} (kw bucket : List (String × α)) :
    List String → List (String × α) × List (String × α)
  | [] => (kw, bucket)
  | item :: rest =>
    match dictPop kw item with
    | (some v, kw') => popGroup kw' (dictInsert bucket item v) rest
    | (none, _) => popGroup kw bucket rest

/-- The main loop of `sort_kwargs` over the ordering, carrying the two buckets,
the (mutating) kwargs mapping and the cursor (`second = true` after a `"*"`).
The second component of the result is the kwargs state at return or at the
raise point. -/
def sortKwargsLoop {α : Type} (d1 d2 kw : List (String × α)) (second : Bool) :
    List OrdElem →
    Except String (List (String × α) × List (String × α)) × List (String × α)
  | [] => (.ok (d1, d2), kw)
  | .str s :: rest =>
    if s == "*" then sortKwargsLoop d1 d2 kw true rest
    else (.error ("Unknown kwarg group: " ++ s), kw)
  | .group g :: rest =>
    if second then
      let (kw', d2') := popGroup kw d2 g
      sortKwargsLoop d1 d2' kw' true rest
    else
      let (kw', d1') := popGroup kw d1 g
      sortKwargsLoop d1' d2 kw' second rest

/-- `sort_kwargs(kwargs, ordering)`: the returned mapping `{**sorted_dict_1,
**kwargs, **sorted_dict_2}` (or the raised error), paired with the final state
of the caller's `kwargs` mapping, which the function mutates in place. -/
def sort_kwargs {α : Type} (kwargs : List (String × α)) (ordering : List OrdElem) :
    Except String (List (String × α)) × List (String × α) :=
  match sortKwargsLoop [] [] kwargs false ordering with
  | (.ok (d1, d2), kw) => (.ok (dictMerge (dictMerge d1 kw) d2), kw)
  | (.error e, kw) => (.error e, kw)

/-! ### Specification-side formulations for `sort_kwargs` -/

/-- Every bare-string element of the ordering is exactly the wildcard. -/
def validOrdering (ordering : List OrdElem) : Bool :=
  ordering.all (fun e => match e with | .str s => s == "*" | .group _ => true)

/-- All name groups of an ordering, in order, ignoring wildcard markers. -/
def allGroups : List OrdElem → List (List String)
  | [] => []
  | .str _ :: rest => allGroups rest
  | .group g :: rest => g :: allGroups rest

/-- The groups before the first bare-string element (the wildcard, in a valid
ordering). -/
def preGroups : List OrdElem → List (List String)
  | [] => []
  | .str _ :: _ => []
  | .group g :: rest => g :: preGroups rest

/-- The groups after the first bare-string element. -/
def postGroups : List OrdElem → List (List String)
  | [] => []
  | .str _ :: rest => allGroups rest
  | .group _ :: rest => postGroups rest

/-- Picks the named entries out of a mapping, in name order, skipping names
that are (no longer) present; returns the picked entries and the remainder of
the mapping. -/
def pickNames {α : Type} (kw : List (String × α)) :
    List String → List (String × α) × List (String × α)
  | [] => ([], kw)
  | n :: ns =>
    match dictPop kw n with
    | (some v, kw') =>
      let (picked, rem) := pickNames kw' ns
      ((n, v) :: picked, rem)
    | (none, _) => pickNames kw ns

/-- The result mapping as the specification words it: the entries named by
pre-wildcard groups in group order (restricted to names present), then the
unmentioned entries in original mapping order, then the entries named by
post-wildcard groups in group order. -/
def sort_kwargs_spec {α : Type} (kwargs : List (String × α)) (ordering : List OrdElem) :
    List (String × α) :=
  (pickNames kwargs (preGroups ordering).flatten).1
    ++ (pickNames (pickNames kwargs (preGroups ordering).flatten).2
          (postGroups ordering).flatten).2
    ++ (pickNames (pickNames kwargs (preGroups ordering).flatten).2
          (postGroups ordering).flatten).1

/-- The first bare-string ordering element that is not the wildcard, if any —
the element whose processing raises. -/
def firstInvalid : List OrdElem → Option String
  | [] => none
  | .str s :: rest => if s == "*" then firstInvalid rest else some s
  | .group _ :: rest => firstInvalid rest

/-- The groups the loop processes before reaching the first invalid element. -/
def groupsBeforeInvalid : List OrdElem → List (List String)
  | [] => []
  | .str s :: rest => if s == "*" then groupsBeforeInvalid rest else []
  | .group g :: rest => g :: groupsBeforeInvalid rest

/-- The field line rendered for one field name: the canonicalised name, a
colon and the converted type text of the descriptor found for the name in the
type mapping (the empty string stands for the unreachable missing-key case). -/
def fieldLineOf {M I : Type} (mt : M → List I × String) (us : String → String)
    (tymap : List (String × M)) (f : String) : String :=
  match dictGet tymap f with
  | some m => GenericModelCodeGenerator.FIELD_render (us f) (mt m).2 none
  | none => ""

/-! ## Helper lemmas for the `template()` claim -/

/-- Deleting a trailing blank line with Python-style index `-1` access is the
same as deleting a leading blank line of the reversed list. -/
theorem stripTrailingBlank_eq (xs : List String) :
    (match xs.getLast? with
     | some l => if l.trim = "" then xs.dropLast else xs
     | none => xs) =
    (stripLeadingBlankLine xs.reverse).reverse := by
  induction xs using List.reverseRecOn with
  | nil => rfl
  | append_singleton ys y ih =>
    rw [List.reverse_append]
    simp only [List.reverse_cons, List.reverse_nil, List.nil_append, List.singleton_append]
    rw [List.getLast?_concat]
    by_cases h : y.trim = ""
    · simp [stripLeadingBlankLine, h, List.dropLast_concat]
    · simp [stripLeadingBlankLine, h]

/-- Claim C7. The text `template()` hands to the templating engine is the pattern
unchanged when it has no newline, and otherwise the pattern with a leading and
a trailing whitespace-only line deleted when present and exactly one leading
indent unit removed from every line that begins with it, as the specification
states. -/
theorem template_matches_spec (pattern ind : String) :
    template_text pattern ind = template_spec pattern ind := by
  unfold template_text template_spec
  split
  · dsimp only
    rw [stripTrailingBlank_eq]
    rfl
  · rfl

/-! ## Theorems about `GenericModelCodeGenerator.init` -/

/-- Claim C3 counterexample. Constructing the base generator with the non-empty
keyword configuration `{"a": 1}` produces an instance whose attribute dict is
exactly `{"model": model}`: no attribute stores the keyword configuration. -/
theorem init_kwargs_not_stored_cex :
    GenericModelCodeGenerator.init (M := Nat) (V := Nat) ⟨"X", []⟩ [("a", 1)] =
      [("model", InstAttr.model ⟨"X", []⟩)]
    ∧ ¬ ∃ a, (a, InstAttr.kwargs (M := Nat) [("a", (1 : Nat))]) ∈
        GenericModelCodeGenerator.init (M := Nat) (V := Nat) ⟨"X", []⟩ [("a", 1)] := by
  refine ⟨rfl, ?_⟩
  rintro ⟨a, h⟩
  simp [GenericModelCodeGenerator.init] at h

/-- Claim C3 amended. The constructor accepts any extra keyword configuration but
stores only the model: the produced instance state does not depend on the
keyword configuration, holds the model attribute, and holds nothing else. -/
theorem init_stores_only_model {M V : Type} (model : ModelMeta M)
    (kwargs kwargs' : List (String × V)) :
    GenericModelCodeGenerator.init model kwargs =
        GenericModelCodeGenerator.init model kwargs'
    ∧ ("model", InstAttr.model model) ∈ GenericModelCodeGenerator.init model kwargs
    ∧ ∀ p ∈ GenericModelCodeGenerator.init model kwargs,
        p = ("model", InstAttr.model model) := by
  refine ⟨rfl, ?_, ?_⟩ <;> simp [GenericModelCodeGenerator.init]

/-- Witness for `init_stores_only_model` at a concrete model and two concrete
keyword configurations. -/
theorem init_stores_only_model_witness :
    GenericModelCodeGenerator.init (M := Nat) (V := Nat) ⟨"X", []⟩ [("a", 1)] =
        GenericModelCodeGenerator.init ⟨"X", []⟩ []
    ∧ ("model", InstAttr.model ⟨"X", []⟩) ∈
        GenericModelCodeGenerator.init (M := Nat) (V := Nat) ⟨"X", []⟩ [("a", 1)]
    ∧ ∀ p ∈ GenericModelCodeGenerator.init (M := Nat) (V := Nat) ⟨"X", []⟩ [("a", 1)],
        p = ("model", InstAttr.model ⟨"X", []⟩) :=
  init_stores_only_model ⟨"X", []⟩ [("a", 1)] []

/-! ## Theorems about the resolution context scoping -/

/-- Claim C9. `generate_code` enters the resolution context with the structure's
reference mapping, runs the walk against the activated state, and the
activation is released on every exit path: starting from an inactive slot the
final slot is inactive whatever the walk returns, and when the walk raises the
error propagates unchanged with the slot still released. -/
theorem generate_code_scoped_releases {I E Mp : Type} (cw : List I → String)
    (walk : CtxState Mp → Except E (List I × List String)) (mapping : Mp)
    (delim : String) :
    (generate_code_scoped cw walk mapping delim ⟨none⟩).2 = ⟨none⟩
    ∧ (∀ e, walk ⟨some mapping⟩ = .error e →
        generate_code_scoped cw walk mapping delim ⟨none⟩ = (.error e, ⟨none⟩)) := by
  constructor
  · cases hw : walk ⟨some mapping⟩ with
    | error e => simp [generate_code_scoped, inject_enter, inject_exit, hw]
    | ok r => cases r; simp [generate_code_scoped, inject_enter, inject_exit, hw]
  · intro e he
    simp [generate_code_scoped, inject_enter, inject_exit, he]

/-- Witness for `generate_code_scoped_releases`: a walk that raises; the error
comes back out and the context slot is released. -/
theorem generate_code_scoped_releases_witness :
    (generate_code_scoped (fun (_ : List Nat) => "") (fun (_ : CtxState Nat) =>
        (Except.error "boom" : Except String (List Nat × List String))) 5 "|" ⟨none⟩).2 = ⟨none⟩
    ∧ generate_code_scoped (fun (_ : List Nat) => "")
        (fun (_ : CtxState Nat) =>
          (Except.error "boom" : Except String (List Nat × List String))) 5 "|" ⟨none⟩ =
        (.error "boom", ⟨none⟩) :=
  ⟨(generate_code_scoped_releases _ _ _ _).1,
   (generate_code_scoped_releases _ _ _ _).2 "boom" rfl⟩

/-! ## Theorems about `generate_code`'s output assembly -/


/-- Claim C1. The text `generate_code` returns is the compiled import block followed
by one delimiter when the walk collected any imports, and nothing before the
declarations otherwise; the top-level declaration texts are joined with the
delimiter and one newline ends the output — in particular two declarations
with no imports yield `decl1 ++ delimiter ++ decl2 ++ newline` exactly. -/
theorem generate_code_delimiter_format {M V I Mp : Type} (cw : List I → String)
    (gen : GenCls M V I) (root : List (StructDict M)) (mp : Mp)
    (kwargs? : Option (List (String × V))) (delim : String) :
    ((_generate_code gen (kwargs?.getD []) root 0).1 ≠ [] →
      generate_code cw gen (root, mp) kwargs? delim =
        cw (_generate_code gen (kwargs?.getD []) root 0).1 ++ delim ++
          String.intercalate delim (_generate_code gen (kwargs?.getD []) root 0).2 ++ "\n")
    ∧ ((_generate_code gen (kwargs?.getD []) root 0).1 = [] →
      generate_code cw gen (root, mp) kwargs? delim =
        String.intercalate delim (_generate_code gen (kwargs?.getD []) root 0).2 ++ "\n")
    ∧ (∀ c1 c2, (_generate_code gen (kwargs?.getD []) root 0).1 = [] →
        (_generate_code gen (kwargs?.getD []) root 0).2 = [c1, c2] →
        generate_code cw gen (root, mp) kwargs? delim = c1 ++ delim ++ c2 ++ "\n") := by
  rcases h : _generate_code gen (kwargs?.getD []) root 0 with ⟨imps, cls⟩
  refine ⟨?_, ?_, ?_⟩
  · intro hne
    simp only [ne_eq] at hne
    simp [generate_code, h, List.isEmpty_iff, hne, String.append_assoc]
  · intro he
    simp [generate_code, h, List.isEmpty_iff, he]
  · intro c1 c2 he hcls
    simp only at hcls
    subst hcls
    simp [generate_code, h, List.isEmpty_iff, he, String.intercalate,
      String.intercalate.go, String.append_assoc]

/-- Witness for `generate_code_delimiter_format`: two root declarations, a
generator contributing no imports — the output is exactly the two class texts
joined by the delimiter, with the trailing newline and no import prefix. -/
theorem generate_code_delimiter_format_witness :
    generate_code (fun (_ : List Nat) => "IMPORTS")
        (fun (m : ModelMeta Unit) (_ : List (String × Nat)) (_ : List String) =>
          (([] : List Nat), m.name))
        ([StructDict.mk ⟨"A", []⟩ [], StructDict.mk ⟨"B", []⟩ []], ()) none "\n\n\n" =
      "A" ++ "\n\n\n" ++ "B" ++ "\n" :=
  (generate_code_delimiter_format _ _ _ _ _ _).2.2 "A" "B"
    (by simp [_generate_code]) (by simp [_generate_code])

/-! ## Theorems about the `fields` property -/

/-- Rendering one name sequence in the `fields` loop: when every name resolves
in the type mapping, the produced line list is exactly the map of
`fieldLineOf` over the names, in their order, for some import list. -/
theorem fieldsGo_eq {M I : Type} (mt : M → List I × String) (us : String → String)
    (tymap : List (String × M)) (opt : Bool) :
    ∀ l : List String, (∀ f ∈ l, (dictGet tymap f).isSome) →
      ∃ imps, GenericModelCodeGenerator.fieldsGo mt us tymap opt l =
        some (imps, l.map (fieldLineOf mt us tymap)) := by
  intro l
  induction l with
  | nil => exact fun _ => ⟨[], rfl⟩
  | cons f fs ih =>
    intro h
    obtain ⟨meta, hm⟩ := Option.isSome_iff_exists.mp (h f (by simp))
    obtain ⟨imps', hgo⟩ := ih (fun g hg => h g (by simp [hg]))
    rcases hmt : mt meta with ⟨mi, mty⟩
    refine ⟨mi ++ imps', ?_⟩
    simp [GenericModelCodeGenerator.fieldsGo, hm, hgo,
      GenericModelCodeGenerator.field_data, hmt, fieldLineOf]

/-- Claim C8. The `fields` property renders one line per field in
required-then-optional order: when the field-ordering helper returns
`(req, opt)` and every listed name resolves in the type mapping, the rendered
lines are the lines of `req ++ opt`, in that order. -/
theorem fields_required_then_optional {M I : Type}
    (sf : ModelMeta M → List String × List String) (mt : M → List I × String)
    (us : String → String) (model : ModelMeta M) (req opt : List String)
    (hsf : sf model = (req, opt))
    (hmem : ∀ f ∈ req ++ opt, (dictGet model.type f).isSome) :
    ∃ imps, GenericModelCodeGenerator.fields sf mt us model =
      some (imps, (req ++ opt).map (fieldLineOf mt us model.type)) := by
  obtain ⟨i1, h1⟩ := fieldsGo_eq mt us model.type false req
    (fun f hf => hmem f (by simp [hf]))
  obtain ⟨i2, h2⟩ := fieldsGo_eq mt us model.type true opt
    (fun f hf => hmem f (by simp [hf]))
  exact ⟨i1 ++ i2, by simp [GenericModelCodeGenerator.fields, hsf, h1, h2]⟩

/-- Witness for `fields_required_then_optional`: fields `a, b, c` with helper
result `(["a", "c"], ["b"])` — the lines come out for `a`, then `c`, then `b`. -/
theorem fields_required_then_optional_witness :
    (∀ f ∈ ["a", "c"] ++ ["b"],
      (dictGet [("a", "int"), ("b", "str"), ("c", "int")] f).isSome)
    ∧ ∃ imps, GenericModelCodeGenerator.fields
        (fun (_ : ModelMeta String) => (["a", "c"], ["b"]))
        (fun m => (([] : List Nat), m)) id
        ⟨"T", [("a", "int"), ("b", "str"), ("c", "int")]⟩ =
        some (imps, (["a", "c"] ++ ["b"]).map
          (fieldLineOf (fun m => (([] : List Nat), m)) id
            [("a", "int"), ("b", "str"), ("c", "int")])) :=
  ⟨by decide,
   fields_required_then_optional _ _ _ _ _ _ rfl (by decide)⟩

/-! ## Theorems about the empty-body placeholder -/

/-- Claim C4 counterexample. A model with no fields whose `generate` call receives a
non-empty nested declaration list renders both the nested declaration and the
placeholder line: the output ends in the placeholder even though nested
declarations were rendered as body content. -/
theorem generate_placeholder_with_nested_cex :
    GenericModelCodeGenerator.generate (fun (_ : ModelMeta String) => ([], []))
        (fun m => (([] : List Nat), m)) id (fun s => "    " ++ s) ⟨"A", []⟩ ["x"] =
      some ([], "class A:\n    x\n\n    pass")
    ∧ (["x"] : List String) ≠ []
    ∧ "class A:\n    x\n\n    pass" = "class A:\n    x\n" ++ "\n    pass" := by
  refine ⟨rfl, by simp, rfl⟩

/-- Claim C4 amended. In the text returned by `generate`, the placeholder line is
rendered exactly when the field line list is empty, regardless of nested
declarations: with no fields the body is the header (decorators, class line,
nested blocks) followed by the placeholder; with fields it is the header
followed by the field lines and no placeholder branch. -/
theorem generate_empty_body_placeholder {M I : Type}
    (sf : ModelMeta M → List String × List String) (mt : M → List I × String)
    (us : String → String) (indF : String → String) (model : ModelMeta M)
    (nested : List String) (imports : List I) (fstrs : List String)
    (h : GenericModelCodeGenerator.fields sf mt us model = some (imports, fstrs)) :
    (fstrs = [] →
      GenericModelCodeGenerator.generate sf mt us indF model nested =
        some (imports,
          GenericModelCodeGenerator.bodyHeader GenericModelCodeGenerator.decorators
            model.name (if nested.isEmpty then [] else nested.map indF) ++ "\n    pass"))
    ∧ (fstrs ≠ [] →
      GenericModelCodeGenerator.generate sf mt us indF model nested =
        some (imports,
          GenericModelCodeGenerator.bodyHeader GenericModelCodeGenerator.decorators
            model.name (if nested.isEmpty then [] else nested.map indF) ++
            String.join (fstrs.map (fun f => "\n    " ++ f)))) := by
  constructor
  · intro he
    subst he
    simp [GenericModelCodeGenerator.generate, h, GenericModelCodeGenerator.BODY_render,
      GenericModelCodeGenerator.bodyHeader, String.append_assoc]
  · intro hne
    simp [GenericModelCodeGenerator.generate, h, GenericModelCodeGenerator.BODY_render,
      GenericModelCodeGenerator.bodyHeader, List.isEmpty_iff, hne, String.append_assoc]

/-- Witness for `generate_empty_body_placeholder`: a no-field model with one
nested declaration takes the placeholder branch. -/
theorem generate_empty_body_placeholder_witness :
    GenericModelCodeGenerator.generate (fun (_ : ModelMeta String) => ([], []))
        (fun m => (([] : List Nat), m)) id (fun s => "    " ++ s) ⟨"E", []⟩ ["x"] =
      some ([],
        GenericModelCodeGenerator.bodyHeader GenericModelCodeGenerator.decorators "E"
          (if (["x"] : List String).isEmpty then [] else ["x"].map (fun s => "    " ++ s))
          ++ "\n    pass") :=
  (generate_empty_body_placeholder (fun (_ : ModelMeta String) => ([], []))
    (fun m => (([] : List Nat), m)) id (fun s => "    " ++ s) ⟨"E", []⟩ ["x"]
    [] [] rfl).1 rfl

/-! ## Theorems about the tree walker's import accumulation -/

/-- The depth counter of the walker is bookkeeping only: at every depth the
walk computes the `treeWalk` recursion. -/
theorem _generate_code_eq_treeWalk {M V I : Type} (gen : GenCls M V I)
    (kwargs : List (String × V)) :
    ∀ (nodes : List (StructDict M)) (lvl : Nat),
      _generate_code gen kwargs nodes lvl = treeWalk gen kwargs nodes
  | [], _ => by simp [_generate_code, treeWalk]
  | .mk model nested :: rest, lvl => by
    have h1 := _generate_code_eq_treeWalk gen kwargs nested (lvl + 1)
    have h2 := _generate_code_eq_treeWalk gen kwargs rest lvl
    simp [_generate_code, treeWalk, h1, h2]
termination_by nodes _ => sizeOf nodes
decreasing_by all_goals (simp_wf <;> omega)

/-- The import component of the walk is the children-before-own flattening
`treeImports`. -/
theorem treeWalk_fst {M V I : Type} (gen : GenCls M V I) (kwargs : List (String × V)) :
    ∀ nodes : List (StructDict M),
      (treeWalk gen kwargs nodes).1 = treeImports gen kwargs nodes
  | [] => by simp [treeWalk, treeImports]
  | .mk model nested :: rest => by
    have h1 := treeWalk_fst gen kwargs nested
    have h2 := treeWalk_fst gen kwargs rest
    simp [treeWalk, treeImports, h1, h2]
termination_by nodes => sizeOf nodes
decreasing_by all_goals (simp_wf <;> omega)

/-- The class-text component of the walk lists one rendered class per input
node, in input order. -/
theorem treeWalk_snd {M V I : Type} (gen : GenCls M V I) (kwargs : List (String × V)) :
    ∀ nodes : List (StructDict M),
      (treeWalk gen kwargs nodes).2 =
        nodes.map (fun n => (gen n.model kwargs (treeWalk gen kwargs n.nested).2).2) := by
  intro nodes
  induction nodes with
  | nil => simp [treeWalk]
  | cons hd tl ih =>
    cases hd with
    | mk model nested => simp [treeWalk, ih, StructDict.model, StructDict.nested]

/-- Membership in a node list injects both the node's own generator imports
and its whole subtree's imports into the flattened import list. -/
theorem mem_treeImports_of_mem {M V I : Type} (gen : GenCls M V I)
    (kwargs : List (String × V)) {node : StructDict M} {nodes : List (StructDict M)}
    (h : node ∈ nodes) :
    (∀ i ∈ (gen node.model kwargs (treeWalk gen kwargs node.nested).2).1,
        i ∈ treeImports gen kwargs nodes)
    ∧ (∀ i ∈ treeImports gen kwargs node.nested, i ∈ treeImports gen kwargs nodes) := by
  induction nodes with
  | nil => cases h
  | cons hd tl ih =>
    cases hd with
    | mk model nested =>
      rcases List.mem_cons.mp h with h1 | h2
      · subst h1
        refine ⟨fun i hi => ?_, fun i hi => ?_⟩ <;>
          simp only [treeImports, List.mem_append, StructDict.model, StructDict.nested] at * <;>
          tauto
      · obtain ⟨ihn, ihs⟩ := ih h2
        refine ⟨fun i hi => ?_, fun i hi => ?_⟩ <;>
          simp only [treeImports, List.mem_append] <;> tauto

/-- Every import of a node visited anywhere in the walk lands in the
flattened import list of the walked node sequence. -/
theorem occurs_imports_sub {M V I : Type} (gen : GenCls M V I)
    (kwargs : List (String × V)) {node : StructDict M} {nodes : List (StructDict M)}
    (h : Occurs node nodes) :
    ∀ i ∈ (gen node.model kwargs (treeWalk gen kwargs node.nested).2).1,
      i ∈ treeImports gen kwargs nodes := by
  induction h with
  | top hmem => exact (mem_treeImports_of_mem gen kwargs hmem).1
  | deeper hmem hocc ih =>
    exact fun i hi => (mem_treeImports_of_mem gen kwargs hmem).2 i (ih i hi)

/-- Claim C2. The walker never drops an import: every import contributed by any
visited node's generator — root or nested, at any depth — is in the import
list that `generate_code` hands to the import compiler; that list is the
children-before-own flattening of the tree, and the class texts appear in
input node order. -/
theorem walker_imports_complete {M V I : Type} (gen : GenCls M V I)
    (kwargs : List (String × V)) (nodes : List (StructDict M)) (lvl : Nat) :
    (∀ node, Occurs node nodes →
      ∀ i ∈ (gen node.model kwargs (treeWalk gen kwargs node.nested).2).1,
        i ∈ (_generate_code gen kwargs nodes lvl).1)
    ∧ (_generate_code gen kwargs nodes lvl).1 = treeImports gen kwargs nodes
    ∧ (_generate_code gen kwargs nodes lvl).2 =
        nodes.map (fun n => (gen n.model kwargs (treeWalk gen kwargs n.nested).2).2) := by
  have he := _generate_code_eq_treeWalk gen kwargs nodes lvl
  refine ⟨?_, ?_, ?_⟩
  · intro node hocc i hi
    rw [he, treeWalk_fst]
    exact occurs_imports_sub gen kwargs hocc i hi
  · rw [he, treeWalk_fst]
  · rw [he, treeWalk_snd]

/-- Witness for `walker_imports_complete`: a root with two children; the
entry contributed by the first child (nested one level deep) is in the
walker's import list. -/
theorem walker_imports_complete_witness :
    "C" ∈ (_generate_code
        (fun (m : ModelMeta Unit) (_ : List (String × Nat)) (_ : List String) =>
          ([m.name], m.name)) []
        [StructDict.mk ⟨"RRR", []⟩
          [StructDict.mk ⟨"C", []⟩ [], StructDict.mk ⟨"CC", []⟩ []]] 0).1 :=
  (walker_imports_complete _ _ _ 0).1 (StructDict.mk ⟨"C", []⟩ [])
    (Occurs.deeper (List.mem_cons_self _ _) (Occurs.top (List.mem_cons_self _ _)))
    "C" (by simp [treeWalk, StructDict.model, StructDict.nested])

/-! ## Dict lemmas for the `sort_kwargs` claims -/

theorem hasKey_cons {α : Type} (p : String × α) (rest : List (String × α)) (k : String) :
    hasKey (p :: rest) k = ((p.1 == k) || hasKey rest k) := by
  simp [hasKey]

theorem hasKey_append {α : Type} (a b : List (String × α)) (k : String) :
    hasKey (a ++ b) k = (hasKey a k || hasKey b k) := by
  simp [hasKey, List.any_append]

theorem hasKey_eq_false_iff {α : Type} (d : List (String × α)) (k : String) :
    hasKey d k = false ↔ ∀ p ∈ d, p.1 ≠ k := by
  simp [hasKey]

theorem hasKey_of_mem {α : Type} {d : List (String × α)} {p : String × α} (h : p ∈ d) :
    hasKey d p.1 = true := by
  simp only [hasKey, List.any_eq_true]
  exact ⟨p, h, by simp⟩

theorem hasKey_iff_mem_keys {α : Type} (d : List (String × α)) (k : String) :
    hasKey d k = true ↔ k ∈ d.map Prod.fst := by
  simp only [hasKey, List.any_eq_true, List.mem_map]
  constructor
  · rintro ⟨p, hm, he⟩
    exact ⟨p, hm, by simpa using he⟩
  · rintro ⟨p, hm, he⟩
    exact ⟨p, hm, by simp [he]⟩

theorem hasKey_of_sublist {α : Type} {d' d : List (String × α)} (h : d'.Sublist d)
    {k : String} (hk : hasKey d' k = true) : hasKey d k = true := by
  simp only [hasKey, List.any_eq_true] at hk ⊢
  obtain ⟨p, hm, he⟩ := hk
  exact ⟨p, h.subset hm, he⟩

theorem keysNodup_cons {α : Type} {p : String × α} {rest : List (String × α)}
    (h : keysNodup (p :: rest)) : p.1 ∉ rest.map Prod.fst ∧ keysNodup rest := by
  simpa [keysNodup] using h

theorem dictPop_none {α : Type} {d : List (String × α)} {k : String}
    (h : hasKey d k = false) : dictPop d k = (none, d) := by
  induction d with
  | nil => rfl
  | cons p rest ih =>
    rw [hasKey_cons] at h
    simp only [Bool.or_eq_false_iff] at h
    simp [dictPop, h.1, ih h.2]

theorem dictPop_fst_none {α : Type} {d : List (String × α)} {k : String}
    (h : (dictPop d k).1 = none) : hasKey d k = false := by
  induction d with
  | nil => rfl
  | cons p rest ih =>
    rw [hasKey_cons]
    by_cases hk : (p.1 == k) = true
    · simp [dictPop, hk] at h
    · rcases hd : dictPop rest k with ⟨vo, rest'⟩
      simp [dictPop, hk, hd] at h
      subst h
      simp [hk, ih (by rw [hd])]

theorem dictPop_perm {α : Type} {d : List (String × α)} {k : String} {v : α}
    {kw' : List (String × α)} (h : dictPop d k = (some v, kw')) :
    d.Perm ((k, v) :: kw') := by
  induction d generalizing kw' with
  | nil => simp [dictPop] at h
  | cons p rest ih =>
    by_cases hk : (p.1 == k) = true
    · simp [dictPop, hk] at h
      obtain ⟨hv, hrest⟩ := h
      obtain ⟨a, b⟩ := p
      simp at hk
      subst hk hv hrest
      exact List.Perm.refl _
    · rcases hd : dictPop rest k with ⟨vo, rest'⟩
      simp [dictPop, hk, hd] at h
      obtain ⟨hv, hrest⟩ := h
      subst hv
      subst hrest
      exact (List.Perm.cons p (ih hd)).trans (List.Perm.swap _ _ _)

theorem dictPop_sublist {α : Type} (d : List (String × α)) (k : String) :
    (dictPop d k).2.Sublist d := by
  induction d with
  | nil => simp [dictPop]
  | cons p rest ih =>
    by_cases hk : (p.1 == k) = true
    · simp [dictPop, hk]
    · rcases hd : dictPop rest k with ⟨vo, rest'⟩
      rw [hd] at ih
      simp only [] at ih
      simp [dictPop, hk, hd]
      exact ih

theorem dictPop_some_not_mem {α : Type} {d : List (String × α)} {k : String} {v : α}
    {kw' : List (String × α)} (hnd : keysNodup d) (h : dictPop d k = (some v, kw')) :
    ∀ p ∈ kw', p.1 ≠ k := by
  induction d generalizing kw' with
  | nil => simp [dictPop] at h
  | cons p rest ih =>
    obtain ⟨hnotin, hnd'⟩ := keysNodup_cons hnd
    by_cases hk : (p.1 == k) = true
    · simp [dictPop, hk] at h
      obtain ⟨_, hrest⟩ := h
      subst hrest
      simp at hk
      subst hk
      intro q hq he
      exact hnotin (he ▸ List.mem_map_of_mem Prod.fst hq)
    · rcases hd : dictPop rest k with ⟨vo, rest'⟩
      simp [dictPop, hk, hd] at h
      obtain ⟨hv, hrest⟩ := h
      subst hv
      subst hrest
      intro q hq
      rcases List.mem_cons.mp hq with hq1 | hq2
      · subst hq1
        simpa using hk
      · exact ih hnd' hd q hq2

theorem keysNodup_dictPop {α : Type} {d : List (String × α)} (hnd : keysNodup d)
    (k : String) : keysNodup (dictPop d k).2 :=
  List.Nodup.sublist ((dictPop_sublist d k).map Prod.fst) hnd

theorem dictPop_snd_filter {α : Type} {d : List (String × α)} (hnd : keysNodup d)
    (k : String) : (dictPop d k).2 = d.filter (fun p => !(p.1 == k)) := by
  induction d with
  | nil => simp [dictPop]
  | cons p rest ih =>
    obtain ⟨hnotin, hnd'⟩ := keysNodup_cons hnd
    by_cases hk : (p.1 == k) = true
    · simp [dictPop, hk, List.filter_cons]
      symm
      apply List.filter_eq_self.mpr
      intro q hq
      simp at hk
      simp
      intro he
      exact hnotin ((he.trans hk.symm) ▸ List.mem_map_of_mem Prod.fst hq)
    · rcases hd : dictPop rest k with ⟨vo, rest'⟩
      simp [dictPop, hk, hd, List.filter_cons]
      rw [hd] at ih
      exact ih hnd'

theorem dictInsert_eq_append {α : Type} {d : List (String × α)} {k : String}
    (h : hasKey d k = false) (v : α) : dictInsert d k v = d ++ [(k, v)] := by
  induction d with
  | nil => rfl
  | cons p rest ih =>
    rw [hasKey_cons] at h
    simp only [Bool.or_eq_false_iff] at h
    simp [dictInsert, h.1, ih h.2]

theorem dictMerge_eq_append {α : Type} :
    ∀ (b a : List (String × α)), keysNodup b →
      (∀ p ∈ b, hasKey a p.1 = false) → dictMerge a b = a ++ b
  | [], a, _, _ => by simp [dictMerge]
  | p :: b', a, hnd, hdisj => by
    obtain ⟨hnotin, hnd'⟩ := keysNodup_cons hnd
    have h1 : hasKey a p.1 = false := hdisj p (by simp)
    have hstep : dictMerge a (p :: b') = dictMerge (dictInsert a p.1 p.2) b' := rfl
    rw [hstep, dictInsert_eq_append h1]
    rw [dictMerge_eq_append b' (a ++ [(p.1, p.2)]) hnd' ?_]
    · simp
    · intro q hq
      have hqa := hdisj q (by simp [hq])
      have hqp : (p.1 == q.1) = false := by
        simp only [beq_eq_false_iff_ne, ne_eq]
        intro he
        exact hnotin (he ▸ List.mem_map_of_mem Prod.fst hq)
      rw [hasKey_append, hqa, hasKey_cons]
      simp [hasKey, hqp]

theorem pickNames_append {α : Type} (xs ys : List String) :
    ∀ kw : List (String × α),
      pickNames kw (xs ++ ys) =
        ((pickNames kw xs).1 ++ (pickNames (pickNames kw xs).2 ys).1,
         (pickNames (pickNames kw xs).2 ys).2) := by
  induction xs with
  | nil => intro kw; simp [pickNames]
  | cons n ns ih =>
    intro kw
    rcases hd : dictPop kw n with ⟨vo, kw'⟩
    cases vo with
    | some v => simp [pickNames, hd, ih]
    | none => simp [pickNames, hd, ih]

theorem pickNames_sublist {α : Type} (ns : List String) :
    ∀ kw : List (String × α), (pickNames kw ns).2.Sublist kw := by
  induction ns with
  | nil => intro kw; simp [pickNames]
  | cons n ns ih =>
    intro kw
    rcases hd : dictPop kw n with ⟨vo, kw'⟩
    have hsub : kw'.Sublist kw := by
      have := dictPop_sublist kw n
      rw [hd] at this
      exact this
    cases vo with
    | some v =>
      simp only [pickNames, hd]
      exact (ih kw').trans hsub
    | none => simp [pickNames, hd, ih kw]

theorem keysNodup_pickNames_snd {α : Type} {kw : List (String × α)} (hnd : keysNodup kw)
    (ns : List String) : keysNodup (pickNames kw ns).2 :=
  List.Nodup.sublist ((pickNames_sublist ns kw).map Prod.fst) hnd

theorem pickNames_picked_hasKey {α : Type} (ns : List String) :
    ∀ kw : List (String × α), ∀ q ∈ (pickNames kw ns).1, hasKey kw q.1 = true := by
  induction ns with
  | nil => intro kw q hq; simp [pickNames] at hq
  | cons n ns ih =>
    intro kw q hq
    rcases hd : dictPop kw n with ⟨vo, kw'⟩
    have hsub : kw'.Sublist kw := by
      have := dictPop_sublist kw n
      rw [hd] at this
      exact this
    cases vo with
    | some v =>
      simp only [pickNames, hd] at hq
      rcases List.mem_cons.mp hq with hq1 | hq2
      · subst hq1
        exact hasKey_of_mem ((dictPop_perm hd).symm.subset (List.mem_cons_self _ _))
      · exact hasKey_of_sublist hsub (ih kw' q hq2)
    | none =>
      simp only [pickNames, hd] at hq
      exact ih kw q hq

theorem pickNames_disjoint {α : Type} (ns : List String) :
    ∀ kw : List (String × α), keysNodup kw →
      ∀ p ∈ (pickNames kw ns).2, ∀ q ∈ (pickNames kw ns).1, p.1 ≠ q.1 := by
  induction ns with
  | nil => intro kw _ p _ q hq; simp [pickNames] at hq
  | cons n ns ih =>
    intro kw hnd p hp q hq
    rcases hd : dictPop kw n with ⟨vo, kw'⟩
    cases vo with
    | some v =>
      have hnd' : keysNodup kw' := by
        have := keysNodup_dictPop hnd n
        rw [hd] at this
        exact this
      simp only [pickNames, hd] at hp hq
      rcases List.mem_cons.mp hq with hq1 | hq2
      · subst hq1
        exact dictPop_some_not_mem hnd hd p ((pickNames_sublist ns kw').subset hp)
      · exact ih kw' hnd' p hp q hq2
    | none =>
      simp only [pickNames, hd] at hp hq
      exact ih kw hnd p hp q hq

theorem keysNodup_pickNames_fst {α : Type} (ns : List String) :
    ∀ kw : List (String × α), keysNodup kw → keysNodup (pickNames kw ns).1 := by
  induction ns with
  | nil => intro kw _; simp [pickNames, keysNodup]
  | cons n ns ih =>
    intro kw hnd
    rcases hd : dictPop kw n with ⟨vo, kw'⟩
    cases vo with
    | some v =>
      have hnd' : keysNodup kw' := by
        have := keysNodup_dictPop hnd n
        rw [hd] at this
        exact this
      simp only [pickNames, hd]
      unfold keysNodup
      rw [List.map_cons, List.nodup_cons]
      refine ⟨?_, ih kw' hnd'⟩
      intro hmem
      obtain ⟨q, hq, hqn⟩ := List.mem_map.mp hmem
      have hk : hasKey kw' q.1 = true := pickNames_picked_hasKey ns kw' q hq
      rw [hasKey_iff_mem_keys] at hk
      obtain ⟨r, hr, hrq⟩ := List.mem_map.mp hk
      exact dictPop_some_not_mem hnd hd r hr (hrq.trans hqn)
    | none =>
      simp only [pickNames, hd]
      exact ih kw hnd

theorem pickNames_perm {α : Type} (ns : List String) :
    ∀ kw : List (String × α),
      kw.Perm ((pickNames kw ns).1 ++ (pickNames kw ns).2) := by
  induction ns with
  | nil => intro kw; simp [pickNames]
  | cons n ns ih =>
    intro kw
    rcases hd : dictPop kw n with ⟨vo, kw'⟩
    cases vo with
    | some v =>
      simp only [pickNames, hd]
      exact (dictPop_perm hd).trans ((ih kw').cons _)
    | none =>
      simp only [pickNames, hd]
      exact ih kw

theorem pickNames_snd_filter {α : Type} (ns : List String) :
    ∀ kw : List (String × α), keysNodup kw →
      (pickNames kw ns).2 = kw.filter (fun p => !(ns.contains p.1)) := by
  induction ns with
  | nil => intro kw _; simp [pickNames]
  | cons n ns ih =>
    intro kw hnd
    rcases hd : dictPop kw n with ⟨vo, kw'⟩
    cases vo with
    | some v =>
      have hnd' : keysNodup kw' := by
        have := keysNodup_dictPop hnd n; rw [hd] at this; exact this
      have hkw' : kw' = kw.filter (fun p => !(p.1 == n)) := by
        have := dictPop_snd_filter hnd n; rw [hd] at this; exact this
      simp only [pickNames, hd]
      rw [ih kw' hnd', hkw', List.filter_filter]
      apply List.filter_congr
      intro p _
      by_cases h : p.1 = n <;>
        simp [List.contains_cons, Bool.not_or, Bool.and_comm, h]
    | none =>
      have hfalse : hasKey kw n = false := dictPop_fst_none (by rw [hd])
      simp only [pickNames, hd]
      rw [ih kw hnd]
      apply List.filter_congr
      intro p hp
      have hne : (p.1 == n) = false := by
        simp only [beq_eq_false_iff_ne, ne_eq]
        exact (hasKey_eq_false_iff kw n).mp hfalse p hp
      by_cases h : p.1 = n
      · exact absurd h (by simpa using hne)
      · simp [List.contains_cons, Bool.not_or, h]

/-! ## The `sort_kwargs` loop characterisation -/

theorem validOrdering_cons_str {s : String} {rest : List OrdElem}
    (h : validOrdering (OrdElem.str s :: rest) = true) :
    (s == "*") = true ∧ validOrdering rest = true := by
  simpa [validOrdering] using h

theorem validOrdering_cons_group {g : List String} {rest : List OrdElem}
    (h : validOrdering (OrdElem.group g :: rest) = true) :
    validOrdering rest = true := by
  simpa [validOrdering] using h

theorem preGroups_append_postGroups (ordering : List OrdElem) :
    (allGroups ordering).flatten =
      (preGroups ordering).flatten ++ (postGroups ordering).flatten := by
  induction ordering with
  | nil => simp [allGroups, preGroups, postGroups]
  | cons e rest ih =>
    cases e with
    | str s => simp [allGroups, preGroups, postGroups]
    | group g => simp [allGroups, preGroups, postGroups, ih]

theorem popGroup_eq {α : Type} (g : List String) :
    ∀ (kw bucket : List (String × α)), keysNodup kw →
      (∀ p ∈ kw, hasKey bucket p.1 = false) →
      popGroup kw bucket g = ((pickNames kw g).2, bucket ++ (pickNames kw g).1) := by
  induction g with
  | nil => intro kw bucket _ _; simp [popGroup, pickNames]
  | cons n ns ih =>
    intro kw bucket hnd hdisj
    rcases hd : dictPop kw n with ⟨vo, kw'⟩
    cases vo with
    | some v =>
      have hsub : kw'.Sublist kw := by
        have := dictPop_sublist kw n; rw [hd] at this; exact this
      have hnd' : keysNodup kw' := by
        have := keysNodup_dictPop hnd n; rw [hd] at this; exact this
      have hmem : (n, v) ∈ kw := (dictPop_perm hd).symm.subset (List.mem_cons_self _ _)
      have hbn : hasKey bucket n = false := by
        have := hdisj (n, v) hmem
        simpa using this
      have hnotm := dictPop_some_not_mem hnd hd
      have hdisj' : ∀ p ∈ kw', hasKey (dictInsert bucket n v) p.1 = false := by
        intro p hp
        rw [dictInsert_eq_append hbn, hasKey_append, hdisj p (hsub.subset hp),
          hasKey_cons]
        have hne : (n == p.1) = false := by
          simp only [beq_eq_false_iff_ne, ne_eq]
          exact fun he => hnotm p hp he.symm
        simp [hasKey, hne]
      simp only [popGroup, hd]
      rw [ih kw' (dictInsert bucket n v) hnd' hdisj', dictInsert_eq_append hbn]
      simp only [pickNames, hd]
      simp [List.append_assoc]
    | none =>
      simp only [popGroup, pickNames, hd]
      exact ih kw bucket hnd hdisj

theorem sortKwargsLoop_true_eq {α : Type} :
    ∀ (ordering : List OrdElem), validOrdering ordering = true →
      ∀ (d1 d2 kw : List (String × α)), keysNodup kw →
        (∀ p ∈ kw, hasKey d2 p.1 = false) →
        sortKwargsLoop d1 d2 kw true ordering =
          (.ok (d1, d2 ++ (pickNames kw (allGroups ordering).flatten).1),
           (pickNames kw (allGroups ordering).flatten).2) := by
  intro ordering
  induction ordering with
  | nil =>
    intro _ d1 d2 kw _ _
    simp [sortKwargsLoop, allGroups, pickNames]
  | cons e rest ih =>
    cases e with
    | str s =>
      intro hv d1 d2 kw hnd hdisj
      obtain ⟨hs, hv'⟩ := validOrdering_cons_str hv
      simp only [sortKwargsLoop, hs, if_true]
      rw [ih hv' d1 d2 kw hnd hdisj]
      simp [allGroups]
    | group g =>
      intro hv d1 d2 kw hnd hdisj
      have hv' := validOrdering_cons_group hv
      have hpg := popGroup_eq g kw d2 hnd hdisj
      simp only [sortKwargsLoop, if_true]
      rw [hpg]
      have hnd2 := keysNodup_pickNames_snd hnd g
      have hdisj2 : ∀ p ∈ (pickNames kw g).2,
          hasKey (d2 ++ (pickNames kw g).1) p.1 = false := by
        intro p hp
        rw [hasKey_append, hdisj p ((pickNames_sublist g kw).subset hp)]
        have hf : hasKey (pickNames kw g).1 p.1 = false :=
          (hasKey_eq_false_iff _ _).mpr
            (fun q hq he => (pickNames_disjoint g kw hnd p hp q hq) he.symm)
        simp [hf]
      rw [ih hv' d1 (d2 ++ (pickNames kw g).1) (pickNames kw g).2 hnd2 hdisj2]
      have hflat : (allGroups (OrdElem.group g :: rest)).flatten =
          g ++ (allGroups rest).flatten := by simp [allGroups]
      rw [hflat, pickNames_append]
      simp [List.append_assoc]

theorem sortKwargsLoop_false_eq {α : Type} :
    ∀ (ordering : List OrdElem), validOrdering ordering = true →
      ∀ (d1 d2 kw : List (String × α)), keysNodup kw →
        (∀ p ∈ kw, hasKey d1 p.1 = false) →
        (∀ p ∈ kw, hasKey d2 p.1 = false) →
        sortKwargsLoop d1 d2 kw false ordering =
          (.ok (d1 ++ (pickNames kw (preGroups ordering).flatten).1,
                d2 ++ (pickNames (pickNames kw (preGroups ordering).flatten).2
                        (postGroups ordering).flatten).1),
           (pickNames (pickNames kw (preGroups ordering).flatten).2
              (postGroups ordering).flatten).2) := by
  intro ordering
  induction ordering with
  | nil =>
    intro _ d1 d2 kw _ _ _
    simp [sortKwargsLoop, preGroups, postGroups, allGroups, pickNames]
  | cons e rest ih =>
    cases e with
    | str s =>
      intro hv d1 d2 kw hnd hd1 hd2
      obtain ⟨hs, hv'⟩ := validOrdering_cons_str hv
      simp only [sortKwargsLoop, hs, if_true]
      rw [sortKwargsLoop_true_eq rest hv' d1 d2 kw hnd hd2]
      simp [preGroups, postGroups, pickNames]
    | group g =>
      intro hv d1 d2 kw hnd hd1 hd2
      have hv' := validOrdering_cons_group hv
      have hpg := popGroup_eq g kw d1 hnd hd1
      simp only [sortKwargsLoop, Bool.false_eq_true, if_false]
      rw [hpg]
      have hnd2 := keysNodup_pickNames_snd hnd g
      have hdisj1 : ∀ p ∈ (pickNames kw g).2,
          hasKey (d1 ++ (pickNames kw g).1) p.1 = false := by
        intro p hp
        rw [hasKey_append, hd1 p ((pickNames_sublist g kw).subset hp)]
        have hf : hasKey (pickNames kw g).1 p.1 = false :=
          (hasKey_eq_false_iff _ _).mpr
            (fun q hq he => (pickNames_disjoint g kw hnd p hp q hq) he.symm)
        simp [hf]
      have hdisj2 : ∀ p ∈ (pickNames kw g).2, hasKey d2 p.1 = false :=
        fun p hp => hd2 p ((pickNames_sublist g kw).subset hp)
      rw [ih hv' (d1 ++ (pickNames kw g).1) d2 (pickNames kw g).2 hnd2 hdisj1 hdisj2]
      have hflat : (preGroups (OrdElem.group g :: rest)).flatten =
          g ++ (preGroups rest).flatten := by simp [preGroups]
      have hpost : postGroups (OrdElem.group g :: rest) = postGroups rest := by
        simp [postGroups]
      rw [hflat, hpost, pickNames_append]
      simp [List.append_assoc]

theorem contains_append (a b : List String) (x : String) :
    (a ++ b).contains x = (a.contains x || b.contains x) := by
  induction a with
  | nil => simp
  | cons y ys ih => simp [List.contains_cons, ih, Bool.or_assoc]

/-- The success-path characterisation of `sort_kwargs`: on a valid ordering
and a well-formed mapping it returns the specification-ordered mapping, and
the caller's mapping ends up holding exactly the entries whose names no group
mentions. -/
theorem sort_kwargs_ok {α : Type} (kwargs : List (String × α)) (ordering : List OrdElem)
    (hv : validOrdering ordering = true) (hnd : keysNodup kwargs) :
    sort_kwargs kwargs ordering =
      (.ok (sort_kwargs_spec kwargs ordering),
       kwargs.filter (fun p => !((allGroups ordering).flatten.contains p.1))) := by
  have hloop := sortKwargsLoop_false_eq ordering hv [] [] kwargs hnd
      (fun p _ => rfl) (fun p _ => rfl)
  unfold sort_kwargs
  rw [hloop]
  simp only [List.nil_append]
  have hnd1 : keysNodup (pickNames kwargs (preGroups ordering).flatten).2 :=
    keysNodup_pickNames_snd hnd _
  have hndR2 : keysNodup (pickNames (pickNames kwargs (preGroups ordering).flatten).2
      (postGroups ordering).flatten).2 :=
    keysNodup_pickNames_snd hnd1 _
  have hndP2 : keysNodup (pickNames (pickNames kwargs (preGroups ordering).flatten).2
      (postGroups ordering).flatten).1 :=
    keysNodup_pickNames_fst _ _ hnd1
  have hdisjA : ∀ p ∈ (pickNames (pickNames kwargs (preGroups ordering).flatten).2
      (postGroups ordering).flatten).2,
      hasKey (pickNames kwargs (preGroups ordering).flatten).1 p.1 = false := by
    intro p hp
    have hp1 : p ∈ (pickNames kwargs (preGroups ordering).flatten).2 :=
      (pickNames_sublist _ _).subset hp
    exact (hasKey_eq_false_iff _ _).mpr
      (fun q hq he =>
        (pickNames_disjoint _ kwargs hnd p hp1 q hq) he.symm)
  have hmerge1 : dictMerge (pickNames kwargs (preGroups ordering).flatten).1
      (pickNames (pickNames kwargs (preGroups ordering).flatten).2
        (postGroups ordering).flatten).2 =
      (pickNames kwargs (preGroups ordering).flatten).1 ++
        (pickNames (pickNames kwargs (preGroups ordering).flatten).2
          (postGroups ordering).flatten).2 :=
    dictMerge_eq_append _ _ hndR2 hdisjA
  have hdisjB : ∀ p ∈ (pickNames (pickNames kwargs (preGroups ordering).flatten).2
      (postGroups ordering).flatten).1,
      hasKey ((pickNames kwargs (preGroups ordering).flatten).1 ++
        (pickNames (pickNames kwargs (preGroups ordering).flatten).2
          (postGroups ordering).flatten).2) p.1 = false := by
    intro p hp
    rw [hasKey_append]
    have hkey : hasKey (pickNames kwargs (preGroups ordering).flatten).2 p.1 = true :=
      pickNames_picked_hasKey _ _ p hp
    rw [hasKey_iff_mem_keys] at hkey
    obtain ⟨r, hr, hrq⟩ := List.mem_map.mp hkey
    have hA : hasKey (pickNames kwargs (preGroups ordering).flatten).1 p.1 = false :=
      (hasKey_eq_false_iff _ _).mpr
        (fun q hq he =>
          (pickNames_disjoint _ kwargs hnd r hr q hq) (hrq ▸ he.symm ▸ rfl))
    have hB : hasKey (pickNames (pickNames kwargs (preGroups ordering).flatten).2
        (postGroups ordering).flatten).2 p.1 = false :=
      (hasKey_eq_false_iff _ _).mpr
        (fun q hq he =>
          (pickNames_disjoint _ _ hnd1 q hq p hp) he)
    simp [hA, hB]
  have hmerge2 := dictMerge_eq_append _ _ hndP2 hdisjB
  simp only [Prod.mk.injEq]
  refine ⟨?_, ?_⟩
  · rw [hmerge1, hmerge2]
    rfl
  · rw [pickNames_snd_filter _ _ hnd1, pickNames_snd_filter _ _ hnd, List.filter_filter]
    rw [preGroups_append_postGroups]
    apply List.filter_congr
    intro p _
    rw [contains_append]
    by_cases h1 : p.1 ∈ (preGroups ordering).flatten <;>
      by_cases h2 : p.1 ∈ (postGroups ordering).flatten <;>
        simp [h1, h2]

theorem popGroup_id {α : Type} (g : List String) :
    ∀ (kw bucket : List (String × α)), (∀ n ∈ g, hasKey kw n = false) →
      popGroup kw bucket g = (kw, bucket) := by
  induction g with
  | nil => intro kw bucket _; simp [popGroup]
  | cons n ns ih =>
    intro kw bucket h
    have h0 : hasKey kw n = false := h n (by simp)
    simp only [popGroup, dictPop_none h0]
    exact ih kw bucket (fun m hm => h m (by simp [hm]))

theorem sortKwargsLoop_invalid {α : Type} :
    ∀ (ordering : List OrdElem) (s : String), firstInvalid ordering = some s →
      ∀ (d1 d2 kw : List (String × α)) (second : Bool),
        (sortKwargsLoop d1 d2 kw second ordering).1 =
            .error ("Unknown kwarg group: " ++ s)
        ∧ ((∀ n ∈ (groupsBeforeInvalid ordering).flatten, hasKey kw n = false) →
            (sortKwargsLoop d1 d2 kw second ordering).2 = kw) := by
  intro ordering
  induction ordering with
  | nil => intro s h; simp [firstInvalid] at h
  | cons e rest ih =>
    cases e with
    | str t =>
      intro s h d1 d2 kw second
      by_cases ht : (t == "*") = true
      · simp only [firstInvalid, ht, if_true] at h
        simp only [sortKwargsLoop, ht, if_true]
        refine ⟨(ih s h d1 d2 kw true).1, fun hno => (ih s h d1 d2 kw true).2 ?_⟩
        intro n hn
        apply hno
        simpa [groupsBeforeInvalid, ht] using hn
      · have ht' : (t == "*") = false := by
          simpa using ht
        simp only [firstInvalid, ht', Bool.false_eq_true, if_false,
          Option.some.injEq] at h
        subst h
        simp [sortKwargsLoop, ht']
    | group g =>
      intro s h d1 d2 kw second
      simp only [firstInvalid] at h
      constructor
      · cases second with
        | false =>
          rcases hp : popGroup kw d1 g with ⟨kw', d1'⟩
          simp only [sortKwargsLoop, Bool.false_eq_true, if_false, hp]
          exact (ih s h d1' d2 kw' false).1
        | true =>
          rcases hp : popGroup kw d2 g with ⟨kw', d2'⟩
          simp only [sortKwargsLoop, if_true, hp]
          exact (ih s h d1 d2' kw' true).1
      · intro hno
        have hg : ∀ n ∈ g, hasKey kw n = false := by
          intro n hn
          apply hno
          simp [groupsBeforeInvalid, hn]
        have hrest : ∀ n ∈ (groupsBeforeInvalid rest).flatten, hasKey kw n = false := by
          intro n hn
          apply hno
          simp [groupsBeforeInvalid, hn]
        cases second with
        | false =>
          simp only [sortKwargsLoop, Bool.false_eq_true, if_false,
            popGroup_id g kw d1 hg]
          exact (ih s h d1 d2 kw false).2 hrest
        | true =>
          simp only [sortKwargsLoop, if_true, popGroup_id g kw d2 hg]
          exact (ih s h d1 d2 kw true).2 hrest

/-! ## Theorems about `sort_kwargs` -/

/-- Claim C5. On a valid ordering (groups and the wildcard) and a well-formed
mapping, `sort_kwargs` succeeds, and the returned mapping is ordered as the
specification states: pre-wildcard group names present in the mapping in
group order, then the unmentioned entries in their original order, then the
post-wildcard group names in group order (`sort_kwargs_spec`). -/
theorem sort_kwargs_result_order {α : Type} (kwargs : List (String × α))
    (ordering : List OrdElem) (hv : validOrdering ordering = true)
    (hnd : keysNodup kwargs) :
    (sort_kwargs kwargs ordering).1 = .ok (sort_kwargs_spec kwargs ordering) := by
  rw [sort_kwargs_ok kwargs ordering hv hnd]

/-- Witness for `sort_kwargs_result_order`: the specification's example
mapping and ordering yield the order `y, z, x`. -/
theorem sort_kwargs_result_order_witness :
    validOrdering [OrdElem.group ["y"], OrdElem.str "*", OrdElem.group ["x"]] = true
    ∧ keysNodup [("x", (1 : Nat)), ("y", 2), ("z", 3)]
    ∧ (sort_kwargs [("x", (1 : Nat)), ("y", 2), ("z", 3)]
        [OrdElem.group ["y"], OrdElem.str "*", OrdElem.group ["x"]]).1 =
      .ok [("y", 2), ("z", 3), ("x", 1)] :=
  ⟨by decide, by decide,
   (sort_kwargs_result_order _ _ (by decide) (by decide)).trans
     (congrArg Except.ok (by decide))⟩

/-- Claim C10. On a successful call `sort_kwargs` mutates its `kwargs` argument in
place: afterwards the caller's mapping holds exactly the entries whose names
no ordering group mentions, in their original order, while every original
entry appears in the returned mapping. -/
theorem sort_kwargs_pops_mentioned {α : Type} (kwargs : List (String × α))
    (ordering : List OrdElem) (hv : validOrdering ordering = true)
    (hnd : keysNodup kwargs) :
    (sort_kwargs kwargs ordering).2 =
      kwargs.filter (fun p => !((allGroups ordering).flatten.contains p.1))
    ∧ ∀ p ∈ kwargs, ∃ r, (sort_kwargs kwargs ordering).1 = .ok r ∧ p ∈ r := by
  have h := sort_kwargs_ok kwargs ordering hv hnd
  constructor
  · rw [h]
  · intro p hp
    refine ⟨sort_kwargs_spec kwargs ordering, by rw [h], ?_⟩
    have h1 := pickNames_perm (preGroups ordering).flatten kwargs
    have h2 := pickNames_perm (postGroups ordering).flatten
      (pickNames kwargs (preGroups ordering).flatten).2
    unfold sort_kwargs_spec
    rcases List.mem_append.mp (h1.subset hp) with hA | hB
    · simp [hA]
    · rcases List.mem_append.mp (h2.subset hB) with hC | hD
      · simp [hC]
      · simp [hD]

/-- Witness for `sort_kwargs_pops_mentioned` at the specification's example:
only `z` survives in the caller's mapping. -/
theorem sort_kwargs_pops_mentioned_witness :
    (sort_kwargs [("x", (1 : Nat)), ("y", 2), ("z", 3)]
        [OrdElem.group ["y"], OrdElem.str "*", OrdElem.group ["x"]]).2 =
      [("x", (1 : Nat)), ("y", 2), ("z", 3)].filter
        (fun p => !((allGroups
          [OrdElem.group ["y"], OrdElem.str "*", OrdElem.group ["x"]]).flatten.contains p.1))
    ∧ ∀ p ∈ [("x", (1 : Nat)), ("y", 2), ("z", 3)],
        ∃ r, (sort_kwargs [("x", (1 : Nat)), ("y", 2), ("z", 3)]
          [OrdElem.group ["y"], OrdElem.str "*", OrdElem.group ["x"]]).1 = .ok r ∧ p ∈ r :=
  sort_kwargs_pops_mentioned _ _ (by decide) (by decide)

/-- Claim C6 counterexample. With `{"x": 1}` and the ordering `[["x"], "bad"]` the
call raises InvalidInput at the invalid element, but the group processed
before it has already popped `x`: the caller's mapping is changed when the
error is raised. -/
theorem sort_kwargs_invalid_group_cex :
    (sort_kwargs [("x", (1 : Nat))] [OrdElem.group ["x"], OrdElem.str "bad"]).1 =
        .error "Unknown kwarg group: bad"
    ∧ (sort_kwargs [("x", (1 : Nat))] [OrdElem.group ["x"], OrdElem.str "bad"]).2 ≠
        [("x", 1)] := by
  constructor
  · rfl
  · decide

/-- Claim C6 amended. Any ordering element that is a bare string other than `"*"`
makes `sort_kwargs` raise InvalidInput naming the first such element; the
caller's mapping is left unchanged when no group processed before that
element mentions a present name (in particular when the invalid element comes
first), but groups processed earlier have already popped their present names. -/
theorem sort_kwargs_invalid_group {α : Type} (kwargs : List (String × α))
    (ordering : List OrdElem) (s : String) (h : firstInvalid ordering = some s) :
    (sort_kwargs kwargs ordering).1 = .error ("Unknown kwarg group: " ++ s)
    ∧ ((∀ n ∈ (groupsBeforeInvalid ordering).flatten, hasKey kwargs n = false) →
        (sort_kwargs kwargs ordering).2 = kwargs) := by
  have hl := sortKwargsLoop_invalid ordering s h [] [] kwargs false
  unfold sort_kwargs
  rcases hls : sortKwargsLoop [] [] kwargs false ordering with ⟨res, kwf⟩
  rw [hls] at hl
  cases res with
  | ok pr => simp at hl
  | error e =>
    simp only at hl
    obtain ⟨he, hsnd⟩ := hl
    injection he with he'
    subst he'
    exact ⟨rfl, fun hno => hsnd hno⟩

/-- Witness for `sort_kwargs_invalid_group`: the invalid element comes first,
so the error is raised and the mapping is untouched. -/
theorem sort_kwargs_invalid_group_witness :
    (sort_kwargs [("x", (1 : Nat))] [OrdElem.str "bad"]).1 =
        .error "Unknown kwarg group: bad"
    ∧ (sort_kwargs [("x", (1 : Nat))] [OrdElem.str "bad"]).2 = [("x", 1)] :=
  ⟨(sort_kwargs_invalid_group [("x", (1 : Nat))] [OrdElem.str "bad"] "bad" (by decide)).1,
   (sort_kwargs_invalid_group [("x", (1 : Nat))] [OrdElem.str "bad"] "bad"
     (by decide)).2 (by decide)⟩
